import Mathlib

/-!
Verification of the heuristic signal-extraction pipeline of `src/ingest.py`
(GitHub-organization ingestion script).  The extractors are shallowly embedded
as pure Lean functions over the already-fetched artifacts: network fetches are
modelled by passing the fetched data (with `Option` for calls that may raise
`GithubException`), and each extractor is a function of that data, exactly
mirroring the Python control flow.

Python strings are modelled as `String` (a list of characters), and each
Python string primitive used by the script (`in`, `lower()`, `strip()`,
`startswith`, `split`, slicing) is given an executable Lean counterpart
operating on `String.data`, so that all definitions evaluate by `decide`.
-/

namespace Ingester

/-- The apostrophe character (written via its code point). -/
def aq : Char := Char.ofNat 39

/-- The apostrophe as a one-character string. -/
def aqs : String := String.mk [aq]

/-- The whitespace characters recognised by Python's `str.strip()`
(the ones that can occur in the modelled inputs): space, tab, LF, CR, VT, FF. -/
def wsChars : List Char := [' ', '\t', '\n', '\r', Char.ofNat 11, Char.ofNat 12]

/-- Membership test for `wsChars`. -/
def wsChar (c : Char) : Bool := wsChars.contains c

/-- Python `s.strip()`: remove leading and trailing whitespace. -/
def pyStrip (s : String) : String :=
  String.mk (((s.data.dropWhile wsChar).reverse.dropWhile wsChar).reverse)

/-- Python `s.lower()` (the script only lowercases ASCII text). -/
def pyLower (s : String) : String := String.mk (s.data.map Char.toLower)

/-- Python `needle in hay` for strings: contiguous substring containment. -/
def strContains (hay needle : String) : Bool := decide (needle.data <:+: hay.data)

/-- Python `s.startswith(p)`. -/
def pyStartsWith (s p : String) : Bool := decide (p.data <+: s.data)

/-- Python `s.split(c)[0]`: the text before the first occurrence of `c`
(the whole string when `c` does not occur). -/
def pySplitHead (s : String) (c : Char) : String :=
  String.mk (s.data.takeWhile (fun d => !(d == c)))

/-- Python `s[:n]`: the first `n` characters. -/
def pyTake (s : String) (n : Nat) : String := String.mk (s.data.take n)

/-- Python `s.lstrip(c)`: remove all leading occurrences of `c`. -/
def pyLstrip (s : String) (c : Char) : String :=
  String.mk (s.data.dropWhile (fun d => d == c))

/-- Split a character list at every occurrence of `c` (Python `str.split(c)`). -/
def splitCharL (c : Char) : List Char → List (List Char)
  | [] => [[]]
  | d :: ds =>
    match splitCharL c ds with
    | [] => [[]]
    | r :: rs => if d == c then [] :: r :: rs else (d :: r) :: rs

/-- Python `content.split(chr(10))`: the list of lines. -/
def pyLines (s : String) : List String := (splitCharL '\n' s.data).map String.mk

/-- Decimal digit character. -/
def digitChar (n : Nat) : Char := Char.ofNat (48 + n % 10)

/-- Fuel-driven decimal rendering of a natural number (correct for `n <` fuel bound). -/
def natToChars : Nat → Nat → List Char
  | 0, _ => []
  | fuel + 1, n => if n < 10 then [digitChar n] else natToChars fuel (n / 10) ++ [digitChar n]

/-- Python `str(n)` for a natural number. -/
def pyStrOfNat (n : Nat) : String := String.mk (natToChars (n + 1) n)

/-! ### Python `str(...)` rendering of the dict/list values the script prints

`_parse_makefile` tests `'docker' in str(commands)` where `commands` is a
`dict[str, list[str]]`, and `_parse_docker_compose` tests service keywords
against `str(services).lower()` for a `list[str]`.  We model Python's textual
rendering for strings that contain no quote, backslash or control characters
(the rendering differs only in escaping otherwise, which cannot affect the
alphabetic keywords searched for). -/

/-- A single-quoted string piece, as printed inside a Python list/dict. -/
def qItem (s : String) : List Char := aq :: s.data ++ [aq]

/-- The comma-separated interior of a printed Python list of strings. -/
def qcore : List String → List Char
  | [] => []
  | [s] => qItem s
  | s :: s' :: rest => qItem s ++ ',' :: ' ' :: qcore (s' :: rest)

/-- Python `str(l)` for a list of strings. -/
def listRenderL (l : List String) : List Char := '[' :: qcore l ++ [']']

/-- One printed `'key': [...]` entry of a Python dict of string lists. -/
def eItem (p : String × List String) : List Char :=
  aq :: p.1.data ++ aq :: ':' :: ' ' :: listRenderL p.2

/-- The comma-separated interior of a printed Python dict of string lists. -/
def ecore : List (String × List String) → List Char
  | [] => []
  | [p] => eItem p
  | p :: p' :: rest => eItem p ++ ',' :: ' ' :: ecore (p' :: rest)

/-- Python `str(d)` for a dict mapping strings to lists of strings. -/
def dictRenderL (m : List (String × List String)) : List Char := '{' :: ecore m ++ ['}']

/-- `str(commands)` as a `String`. -/
def reprCommands (m : List (String × List String)) : String := String.mk (dictRenderL m)

/-- `str(services)` as a `String`. -/
def reprServices (l : List String) : String := String.mk (listRenderL l)

/-! ### Insertion-ordered dictionaries

Python dicts preserve insertion order; assignment to an existing key keeps its
position.  The script uses them for the Makefile `commands` map and for the
pattern frequency table. -/

/-- Python `d[k] = v` on an insertion-ordered dict. -/
def updateAssoc (m : List (String × List String)) (k : String) (v : List String) :
    List (String × List String) :=
  if k ∈ m.map Prod.fst then m.map (fun p => if p.1 == k then (k, v) else p)
  else m ++ [(k, v)]

/-- Python `d[k].append(c)` on an insertion-ordered dict of lists. -/
def appendCmd (m : List (String × List String)) (k : String) (c : String) :
    List (String × List String) :=
  m.map (fun p => if p.1 == k then (p.1, p.2 ++ [c]) else p)

/-- Python `d[k] = d.get(k, 0) + 1` on an insertion-ordered counter dict. -/
def bumpCount (m : List (String × Nat)) (k : String) : List (String × Nat) :=
  if k ∈ m.map Prod.fst then m.map (fun p => if p.1 == k then (p.1, p.2 + 1) else p)
  else m ++ [(k, 1)]

/-! ## PR comment mining (`_mine_pr_comments`) -/

/-- One fetched PR comment; `body` is `none` when the API returned null. -/
structure PRComment where
  body : Option String
deriving DecidableEq

/-- One fetched pull request.  `comments` is the concatenation
`list(pr.get_issue_comments()) + list(pr.get_comments())`; it is `none` when
fetching the comments raised `GithubException` (the `except ... continue` path). -/
structure PullRequest where
  number : Nat
  title : String
  comments : Option (List PRComment)
deriving DecidableEq

/-- One match event recorded by the PR miner. -/
structure Signal where
  pr : Nat
  pr_title : String
  pattern : String
  snippet : String
deriving DecidableEq

/-- The `confusion_patterns` catalog, in declaration order. -/
def confusion_patterns : List String :=
  ["how does", "why does", "what is", "what does", "confused", "unclear",
   "not sure", "don" ++ aqs ++ "t understand", "can you explain",
   "what" ++ aqs ++ "s the difference"]

/-- The `debt_patterns` catalog, in declaration order. -/
def debt_patterns : List String :=
  ["should probably", "we should", "todo", "fixme", "hack", "workaround",
   "technical debt", "tech debt", "will fix later", "temporary", "quick fix"]

/-- The `fragility_patterns` catalog, in declaration order. -/
def fragility_patterns : List String :=
  ["breaks", "breaks when", "fails", "doesn" ++ aqs ++ "t work", "broken",
   "regression", "flaky", "intermittent", "sometimes fails", "race condition"]

/-- `body = comment.body.lower() if comment.body else ""`. -/
def lowerBody (c : PRComment) : String :=
  match c.body with
  | none => ""
  | some b => if b = "" then "" else pyLower b

/-- The signals one comment contributes for one pattern catalog: the catalog is
scanned in declaration order and the loop `break`s at the first hit, so the
result is one signal (for the first matching pattern) or none. -/
def commentSignals (patterns : List String) (pr : PullRequest) (c : PRComment) :
    List Signal :=
  let body := lowerBody c
  match patterns.find? (fun p => strContains body p) with
  | some p => [⟨pr.number, pr.title, p, pyTake body 200⟩]
  | none => []

/-- The accumulated `intelligence` record. -/
structure PRIntelligence where
  confusion_signals : List Signal
  tech_debt_acknowledgments : List Signal
  fragility_mentions : List Signal
  common_discussion_topics : List (String × Nat)
  total_prs_analyzed : Nat
  total_comments_analyzed : Nat
deriving DecidableEq

/-- Number of comments a PR contributes to `total_comments_analyzed`
(zero when fetching its comments failed). -/
def commentCount (pr : PullRequest) : Nat :=
  match pr.comments with
  | none => 0
  | some cs => cs.length

/-- Processing of one pull request inside the mining loop. -/
def processPR (acc : PRIntelligence) (pr : PullRequest) : PRIntelligence :=
  match pr.comments with
  | none => acc
  | some cs =>
    { acc with
      total_comments_analyzed := acc.total_comments_analyzed + cs.length
      confusion_signals :=
        acc.confusion_signals ++ cs.flatMap (commentSignals confusion_patterns pr)
      tech_debt_acknowledgments :=
        acc.tech_debt_acknowledgments ++ cs.flatMap (commentSignals debt_patterns pr)
      fragility_mentions :=
        acc.fragility_mentions ++ cs.flatMap (commentSignals fragility_patterns pr) }

/-- Insert into a count-descending list, after entries of equal count
(preserving insertion order among ties, as Python's stable sort does). -/
def insertDesc (x : String × Nat) : List (String × Nat) → List (String × Nat)
  | [] => [x]
  | y :: ys => if y.2 < x.2 then x :: y :: ys else y :: insertDesc x ys

/-- Stable sort by count descending (Python `sorted(..., reverse=True)`). -/
def sortDescCount (l : List (String × Nat)) : List (String × Nat) :=
  l.foldl (fun acc x => insertDesc x acc) []

/-- The frequency table of matched patterns, sorted by count descending
(stable, as Python's `sorted` with `reverse=True`), truncated to the top 10. -/
def topTopics (signals : List Signal) : List (String × Nat) :=
  (sortDescCount (signals.foldl (fun m s => bumpCount m s.pattern) [])).take 10

/-- The empty `intelligence` record the miner starts from. -/
def emptyIntelligence : PRIntelligence := ⟨[], [], [], [], 0, 0⟩

/-- `_mine_pr_comments`, given the fetched closed-PR list (most recently
updated first).  The loop breaks once 100 PRs have been analyzed; the
per-PR counter is incremented before the comment fetch is attempted. -/
def minePRComments (prs : List PullRequest) : PRIntelligence :=
  let scanned := prs.take 100
  let res := scanned.foldl processPR emptyIntelligence
  { res with
    total_prs_analyzed := scanned.length
    common_discussion_topics :=
      topTopics (res.confusion_signals ++ res.tech_debt_acknowledgments ++
        res.fragility_mentions) }

/-! ## Makefile parsing (`_parse_makefile`)

We model the success path (the file was fetched and decoded); the
`GithubException` path returns `{'exists': False}` and records nothing. -/

/-- The loop state: recorded targets, the most recent target, and the
commands dict. -/
structure MkState where
  targets : List String
  current : Option String
  commands : List (String × List String)
deriving DecidableEq

/-- The outer guard on a candidate target line:
`line and not line.startswith(tab) and colon in line and not line.startswith('#')`. -/
def mkTargetLine (line : String) : Bool :=
  !(line == "") && !(pyStartsWith line "\t") && strContains line ":" && !(pyStartsWith line "#")

/-- The target a line records, if any: the outer guard must hold and the
trimmed symbol before the colon must be nonempty and not start with a period. -/
def lineTarget (line : String) : Option String :=
  if mkTargetLine line then
    let t := pyStrip (pySplitHead line ':')
    if !(t == "") && !(pyStartsWith t ".") then some t else none
  else none

/-- One iteration of the Makefile line loop. -/
def mkStep (st : MkState) (line : String) : MkState :=
  if mkTargetLine line then
    let t := pyStrip (pySplitHead line ':')
    if !(t == "") && !(pyStartsWith t ".") then
      ⟨st.targets ++ [t], some t, updateAssoc st.commands t []⟩
    else st
  else if pyStartsWith line "\t" then
    match st.current with
    | some cur =>
      let cmd := pyStrip line
      if !(cmd == "") && !(pyStartsWith cmd "@echo") && !(pyStartsWith cmd "#") then
        ⟨st.targets, st.current, appendCmd st.commands cur (pyLstrip cmd '@')⟩
      else st
    | none => st
  else st

/-- The result record of `_parse_makefile` (success path). -/
structure MakefileInfo where
  targets : List String
  commands : List (String × List String)
  has_deploy_target : Bool
  has_test_target : Bool
  uses_docker : Bool
  total_targets : Nat
deriving DecidableEq

/-- `_parse_makefile` on the decoded file content.  Note that the source
computes `uses_docker` as `any('docker' in str(commands) for t in targets)`:
the same dict-rendering test, once per target. -/
def parseMakefile (content : String) : MakefileInfo :=
  let st := (pyLines content).foldl mkStep ⟨[], none, []⟩
  { targets := st.targets
    commands := st.commands
    has_deploy_target := st.targets.any (fun t => strContains t "deploy")
    has_test_target := st.targets.any (fun t => strContains t "test")
    uses_docker := st.targets.any (fun _ => strContains (reprCommands st.commands) "docker")
    total_targets := st.targets.length }

/-! ## package.json script parsing (`_parse_package_json_scripts`) -/

/-- The result record of `_parse_package_json_scripts` (success path). -/
structure NpmScriptsInfo where
  scripts : List (String × String)
  has_fast_test : Bool
  has_debug_mode : Bool
  has_docker_scripts : Bool
  has_deploy_scripts : Bool
  postinstall_hook : Bool
  test_script_count : Nat
  total_scripts : Nat
deriving DecidableEq

/-- `_parse_package_json_scripts` on the decoded `scripts` mapping (an
insertion-ordered dict, modelled as an association list).  Note that
`'test:fast' in scripts` and `'postinstall' in scripts` are dict-key
membership tests (exact name equality), while the debug/docker/deploy flags
use substring tests over the script names. -/
def parsePackageJsonScripts (scripts : List (String × String)) : NpmScriptsInfo :=
  let names := scripts.map Prod.fst
  { scripts := scripts
    has_fast_test := decide ("test:fast" ∈ names) || decide ("test:quick" ∈ names)
    has_debug_mode := names.any (fun s => strContains s "debug")
    has_docker_scripts := names.any (fun s => strContains s "docker")
    has_deploy_scripts := names.any (fun s => strContains s "deploy")
    postinstall_hook := decide ("postinstall" ∈ names)
    test_script_count := (names.filter (fun s => strContains s "test")).length
    total_scripts := scripts.length }

/-! ## .env.example analysis (`_analyze_env_vars`) -/

/-- The suspicious-name keywords for env variables. -/
def envRedFlagWords : List String :=
  ["magic", "dont_change", "do_not", "legacy", "hack", "temp"]

/-- The result record of `_analyze_env_vars` (success path); `vars` models
the source's `variables` key (`variables` is reserved in Lean). -/
structure EnvInfo where
  total_vars : Nat
  vars : List String
  categories : List (String × Nat)
  red_flags : List String
  complexity : String
deriving DecidableEq

/-- One iteration of the env-template line loop, accumulating
(variables, red flags). -/
def envStep (acc : List String × List String) (l : String) : List String × List String :=
  let line := pyStrip l
  if !(line == "") && !(pyStartsWith line "#") && strContains line "=" then
    let v := pyStrip (pySplitHead line '=')
    (acc.1 ++ [v],
      if envRedFlagWords.any (fun k => strContains (pyLower v) k) then acc.2 ++ [v]
      else acc.2)
  else acc

/-- Count of variables whose lowercase name contains one of the keywords. -/
def envCatCount (vars : List String) (keys : List String) : Nat :=
  (vars.filter (fun v => keys.any (fun k => strContains (pyLower v) k))).length

/-- `_analyze_env_vars` on the decoded `.env.example` content. -/
def analyzeEnvVars (content : String) : EnvInfo :=
  let acc := (pyLines content).foldl envStep ([], [])
  let vars := acc.1
  { total_vars := vars.length
    vars := vars
    categories :=
      [("database", envCatCount vars ["database", "db_", "postgres", "mysql", "mongo"]),
       ("cache", envCatCount vars ["redis", "cache", "memcache"]),
       ("cloud", envCatCount vars ["aws", "gcp", "azure", "s3", "bucket"]),
       ("auth", envCatCount vars ["auth", "secret", "key", "token"]),
       ("observability", envCatCount vars ["sentry", "datadog", "newrelic", "log"]),
       ("feature_flags", envCatCount vars ["enable", "feature", "flag"])]
    red_flags := acc.2
    complexity :=
      if vars.length < 5 then "low" else if vars.length < 15 then "medium" else "high" }

/-! ## Insight records -/

/-- A synthesized finding. -/
structure Insight where
  category : String
  issue : String
  severity : String
  description : String
  suggestion : String
deriving DecidableEq

/-! ## Commit archaeology (`_analyze_commit_patterns`)

Commits are taken as fetched (most recent first); `commit.commit.author.date`
is modelled by its precomputed weekday name (`strftime` with the day-name
format), hour, and ISO rendering.  Ratio comparisons are modelled over exact
rationals: for at most 200 commits, every ratio other than the threshold value
itself differs from `0.03` / `0.05` / `0.15` / `20` by far more than the
floating-point rounding error, and at the threshold both the float and the
rational comparison are (strictly) false, so the float comparisons of the
source agree with the rational ones on every reachable input. -/

/-- One fetched commit. -/
structure Commit where
  sha : String
  message : String
  weekday : String
  hour : Nat
  dateIso : String
deriving DecidableEq

/-- The revert/rollback keywords. -/
def revert_keywords : List String := ["revert", "rollback", "roll back"]

/-- A recorded revert commit. -/
structure RevertEntry where
  sha : String
  message : String
  date : String
deriving DecidableEq

/-- The per-commit accumulating state of the archaeology loop. -/
structure CommitState where
  weekdayHist : List (String × Nat)
  hourHist : List (String × Nat)
  revert_commits : List RevertEntry
  friday_deploys : Nat
  weekend_activity : Nat
  msgLens : List Nat
deriving DecidableEq

/-- One iteration of the commit loop. -/
def commitStep (st : CommitState) (c : Commit) : CommitState :=
  { weekdayHist := bumpCount st.weekdayHist c.weekday
    hourHist := bumpCount st.hourHist (pyStrOfNat c.hour)
    revert_commits :=
      if revert_keywords.any (fun k => strContains (pyLower c.message) k) then
        st.revert_commits ++
          [⟨pyTake c.sha 7, pyTake (pySplitHead c.message '\n') 100, c.dateIso⟩]
      else st.revert_commits
    friday_deploys := st.friday_deploys + (if c.weekday == "Friday" then 1 else 0)
    weekend_activity :=
      st.weekend_activity +
        (if c.weekday == "Saturday" || c.weekday == "Sunday" then 1 else 0)
    msgLens := st.msgLens ++ [c.message.length] }

/-- The result record of `_analyze_commit_patterns`. -/
structure CommitPatterns where
  total_commits : Nat
  weekday_times : List (String × Nat)
  hour_times : List (String × Nat)
  revert_commits : List RevertEntry
  friday_deploys : Nat
  weekend_activity : Nat
  avg_commit_message_length : ℚ
  insights : List Insight
deriving DecidableEq

/-- `_analyze_commit_patterns` on the fetched commit list (capped at 200 by
the slice in the source).  Percentage formatting inside descriptions is
abstracted (no claim depends on description text). -/
def analyzeCommitPatterns (fetched : List Commit) : CommitPatterns :=
  let commits := fetched.take 200
  if commits.length = 0 then ⟨0, [], [], [], 0, 0, 0, []⟩
  else
    let st := commits.foldl commitStep ⟨[], [], [], 0, 0, []⟩
    let total := commits.length
    let avgLen : ℚ := (st.msgLens.sum : ℚ) / (st.msgLens.length : ℚ)
    let revertRate : ℚ := (st.revert_commits.length : ℚ) / (total : ℚ)
    let fridayFrac : ℚ := (st.friday_deploys : ℚ) / (total : ℚ)
    let weekendFrac : ℚ := (st.weekend_activity : ℚ) / (total : ℚ)
    { total_commits := total
      weekday_times := st.weekdayHist
      hour_times := st.hourHist
      revert_commits := st.revert_commits
      friday_deploys := st.friday_deploys
      weekend_activity := st.weekend_activity
      avg_commit_message_length := avgLen
      insights :=
        (if revertRate > 0.03 then
          [⟨"stability", "high_revert_rate", "high",
            pyStrOfNat st.revert_commits.length ++ " reverts in " ++ pyStrOfNat total ++
              " commits",
            "High revert rate suggests deployment or testing issues"⟩]
        else []) ++
        (if fridayFrac < 0.05 then
          [⟨"culture", "friday_deploy_avoidance", "medium",
            "Very few Friday commits, suggesting deploy fear",
            "Build confidence with better testing and rollback procedures"⟩]
        else []) ++
        (if weekendFrac > 0.15 then
          [⟨"culture", "weekend_work", "medium",
            "High share of commits on weekends",
            "High weekend activity may indicate incident response or work-life balance issues"⟩]
        else []) ++
        (if avgLen < 20 then
          [⟨"process", "poor_commit_messages", "low",
            "Short average commit message length",
            "Short commit messages make code archaeology difficult"⟩]
        else []) }

/-! ## CI performance (`_analyze_ci_performance`)

Run timestamps are modelled as seconds (`Option Int`, `none` when the
timestamp is missing); `(updated - created).total_seconds()` becomes integer
subtraction. -/

/-- One fetched workflow run. -/
structure WorkflowRun where
  conclusion : String
  created_at : Option Int
  updated_at : Option Int
deriving DecidableEq

/-- One fetched workflow; `runsFetch` is `none` when `get_runs` raised. -/
structure CIWorkflow where
  name : String
  path : String
  state : String
  runsFetch : Option (List WorkflowRun)
deriving DecidableEq

/-- The per-workflow data record (optional fields model dict keys that are
only assigned on some paths). -/
structure WorkflowData where
  name : String
  path : String
  state : String
  avg_duration_seconds : Option Int
  avg_duration_minutes : Option ℚ
  failure_rate : Option ℚ
  recent_runs : Option Nat
deriving DecidableEq

/-- Duration of a run when both timestamps are present. -/
def runDuration (r : WorkflowRun) : Option Int :=
  match r.created_at, r.updated_at with
  | some c, some u => some (u - c)
  | _, _ => none

/-- The runs the script iterates over for one workflow:
`list(workflow.get_runs()[:10])`, empty when the fetch raised. -/
def fetchedRuns (w : CIWorkflow) : List WorkflowRun :=
  match w.runsFetch with
  | none => []
  | some rs => rs.take 10

/-- Truncation toward zero, Python `int(x)`. -/
def pyInt (q : ℚ) : Int := if 0 ≤ q then ⌊q⌋ else ⌈q⌉

/-- Round-half-to-even to an integer (Python `round`), modelled on exact
rationals. -/
def roundHalfToEven (q : ℚ) : Int :=
  let f := ⌊q⌋
  let r := q - (f : ℚ)
  if r < 1 / 2 then f else if 1 / 2 < r then f + 1 else if f % 2 = 0 then f else f + 1

/-- Python `round(x, 1)`. -/
def pyRound1 (q : ℚ) : ℚ := (roundHalfToEven (q * 10) : ℚ) / 10

/-- The `workflow_data` dict built for one workflow. -/
def processWorkflow (w : CIWorkflow) : WorkflowData :=
  let runs := fetchedRuns w
  if runs.length = 0 then ⟨w.name, w.path, w.state, none, none, none, none⟩
  else
    let durations := runs.filterMap runDuration
    let failures := (runs.filter (fun r => r.conclusion == "failure")).length
    let avgFields : Option Int × Option ℚ :=
      if durations.length = 0 then (none, none)
      else
        let avg : ℚ := ((durations.sum : ℚ)) / ((durations.length : ℚ))
        (some (pyInt avg), some (pyRound1 (avg / 60)))
    { name := w.name
      path := w.path
      state := w.state
      avg_duration_seconds := avgFields.1
      avg_duration_minutes := avgFields.2
      failure_rate := some ((failures : ℚ) / (runs.length : ℚ))
      recent_runs := some runs.length }

/-- The insights the synthesis loop emits for one workflow's data
(`workflow.get('avg_duration_minutes', 0) > 15` and
`workflow.get('failure_rate', 0) > 0.2`). -/
def workflowInsights (wd : WorkflowData) : List Insight :=
  (if wd.avg_duration_minutes.getD 0 > 15 then
    [⟨"ci_performance", "slow_ci_workflow", "medium",
      wd.name ++ ": slow average runtime",
      "Consider caching, parallelization, or splitting workflows"⟩]
  else []) ++
  (if wd.failure_rate.getD 0 > 0.2 then
    [⟨"ci_reliability", "flaky_ci_workflow", "high",
      wd.name ++ ": high failure rate",
      "High failure rate suggests flaky tests or environment issues"⟩]
  else [])

/-- The result record of `_analyze_ci_performance`. -/
structure CIAnalysis where
  workflow_count : Nat
  workflows : List WorkflowData
  insights : List Insight
deriving DecidableEq

/-- `_analyze_ci_performance` on the fetched workflow list
(`workflow_count` is the API's total count; the loop is capped at 5). -/
def analyzeCIPerformance (wfs : List CIWorkflow) : CIAnalysis :=
  let datas := (wfs.take 5).map processWorkflow
  { workflow_count := wfs.length
    workflows := datas
    insights := datas.flatMap workflowInsights }

/-! ## docker-compose parsing (`_parse_docker_compose`) -/

/-- The per-file scanning state (the `in_services` flag is reset for each
file; the service list accumulates across the candidate files). -/
structure ComposeState where
  inServices : Bool
  services : List String
deriving DecidableEq

/-- One iteration of the compose line loop. -/
def composeStep (st : ComposeState) (line : String) : ComposeState :=
  if pyStrip line == "services:" then { st with inServices := true }
  else if pyStartsWith (pyStrip line) "volumes:" || pyStartsWith (pyStrip line) "networks:" then
    { st with inServices := false }
  else if st.inServices && !(line == "") && !(pyStartsWith line "    ") &&
      strContains line ":" then
    let name := pyStrip (pySplitHead line ':')
    if !(name == "") && decide (name ∉ st.services) then
      { st with services := st.services ++ [name] }
    else st
  else st

/-- Scan one compose file's content, extending the accumulated service list. -/
def parseComposeContent (acc : List String) (content : String) : List String :=
  ((pyLines content).foldl composeStep ⟨false, acc⟩).services

/-- The result record of `_parse_docker_compose`. -/
structure ComposeInfo where
  exists_ : Bool
  services : List String
  service_count : Nat
  has_database : Bool
  has_cache : Bool
  has_queue : Bool
  complexity : String
deriving DecidableEq

/-- `_parse_docker_compose`: the four candidate filenames are fetched in
order (`none` models a `GithubException` for that filename), and all are
scanned into one service list.  The database/cache/queue flags test keywords
against `str(services).lower()`. -/
def parseDockerCompose (files : List (Option String)) : ComposeInfo :=
  let services := files.foldl
    (fun acc f =>
      match f with
      | none => acc
      | some c => parseComposeContent acc c) []
  { exists_ := decide (services.length > 0)
    services := services
    service_count := services.length
    has_database :=
      ["postgres", "mysql", "mongo", "mariadb"].any
        (fun db => strContains (pyLower (reprServices services)) db)
    has_cache :=
      ["redis", "memcache"].any
        (fun cc => strContains (pyLower (reprServices services)) cc)
    has_queue :=
      ["rabbitmq", "kafka", "celery"].any
        (fun q => strContains (pyLower (reprServices services)) q)
    complexity :=
      if services.length ≤ 2 then "low"
      else if services.length ≤ 4 then "medium" else "high" }

/-! ## Character-class predicates used by the rendering lemmas -/

/-- Every character of the word is alphabetic (true of every searched keyword). -/
@[reducible] def allAlpha (w : List Char) : Prop := ∀ c ∈ w, c.isAlpha = true

/-- No character of the glue is alphabetic (true of all rendering punctuation). -/
@[reducible] def noAlpha (g : List Char) : Prop := ∀ c ∈ g, c.isAlpha = false

/-- The keys of an insertion-ordered dict. -/
def keysOf (m : List (String × List String)) : List String := m.map Prod.fst

/-! ## Concrete inputs used by witnesses and counterexamples -/

/-- A pull request used as a witness input. -/
def prW : PullRequest := ⟨7, "refactor parser", none⟩

/-- A comment containing two confusion trigger phrases. -/
def cW : PRComment := ⟨some "How does this work? Why does it fail?"⟩

/-- A one-PR input whose single comment matches a tech-debt pattern. -/
def prsW : List PullRequest := [⟨1, "t", some [⟨some "todo stuff"⟩]⟩]

/-- The signal `prsW` produces. -/
def sW : Signal := ⟨1, "t", "todo", "todo stuff"⟩

/-- A scripts mapping whose only name strictly contains `test:fast`. -/
def npmCex : List (String × String) := [("test:fastest", "jest")]

/-- A Makefile line that satisfies the claimed target conditions but is
excluded by the period rule. -/
def mkCex3 : String := ".PHONY: test"

/-- A Makefile whose only target name contains `docker` while no recorded
command does. -/
def mkCex4 : String := "docker-build:\n\tmake stuff"

/-- A single revert commit used as a witness input. -/
def commitW : Commit := ⟨"abc1234def", "Revert bad change", "Monday", 10, "2024-01-01"⟩

/-- A workflow whose only run lacks a created timestamp. -/
def ciW : CIWorkflow :=
  ⟨"ci", ".github/workflows/ci.yml", "active", some [⟨"failure", none, some 5⟩]⟩

/-! # Theorems -/

/-! ## General helper lemmas -/

theorem strContains_iff {hay needle : String} :
    strContains hay needle = true ↔ needle.data <:+: hay.data := by
  simp [strContains]

theorem pyTake_length_le (s : String) (n : Nat) : (pyTake s n).length ≤ n := by
  show (s.data.take n).length ≤ n
  simp [List.length_take]

/-! ## C7: environment complexity thresholds -/

/-- C7: the env-template complexity is `low` iff fewer than 5 variables were
collected, `medium` iff at least 5 and fewer than 15, and `high` iff 15 or
more. -/
theorem env_complexity_thresholds (content : String) :
    ((analyzeEnvVars content).complexity = "low" ↔
      (analyzeEnvVars content).total_vars < 5) ∧
    ((analyzeEnvVars content).complexity = "medium" ↔
      5 ≤ (analyzeEnvVars content).total_vars ∧ (analyzeEnvVars content).total_vars < 15) ∧
    ((analyzeEnvVars content).complexity = "high" ↔
      15 ≤ (analyzeEnvVars content).total_vars) := by
  simp only [analyzeEnvVars]
  set n := (((pyLines content).foldl envStep ([], [])).1).length with hn
  split_ifs with h1 h2
  · exact ⟨iff_of_true rfl h1,
      iff_of_false (by decide) (by omega),
      iff_of_false (by decide) (by omega)⟩
  · exact ⟨iff_of_false (by decide) h1,
      iff_of_true rfl ⟨by omega, h2⟩,
      iff_of_false (by decide) (by omega)⟩
  · exact ⟨iff_of_false (by decide) h1,
      iff_of_false (by decide) (by omega),
      iff_of_true rfl (by omega)⟩

/-! ## C2: package.json script flags -/

/-- C2 counterexample: for the mapping with single script name `test:fastest`,
the fast-test flag is false although a script name contains `test:fast` as a
substring, so the five flags are not all pure substring matches. -/
theorem npm_substring_claim_cex :
    ¬ (((parsePackageJsonScripts npmCex).has_fast_test = true) ↔
        ∃ p ∈ npmCex,
          (strContains p.1 "test:fast" || strContains p.1 "test:quick") = true) := by
  decide

/-- C2 (amended): the debug/docker/deploy flags hold iff some script name
contains the keyword as a substring, while the fast-test flag requires the
exact script name `test:fast` or `test:quick` and the post-install flag the
exact name `postinstall`. -/
theorem npm_flags_characterization (scripts : List (String × String)) :
    ((parsePackageJsonScripts scripts).has_debug_mode = true ↔
      ∃ p ∈ scripts, strContains p.1 "debug" = true) ∧
    ((parsePackageJsonScripts scripts).has_docker_scripts = true ↔
      ∃ p ∈ scripts, strContains p.1 "docker" = true) ∧
    ((parsePackageJsonScripts scripts).has_deploy_scripts = true ↔
      ∃ p ∈ scripts, strContains p.1 "deploy" = true) ∧
    ((parsePackageJsonScripts scripts).has_fast_test = true ↔
      ("test:fast" ∈ scripts.map Prod.fst ∨ "test:quick" ∈ scripts.map Prod.fst)) ∧
    ((parsePackageJsonScripts scripts).postinstall_hook = true ↔
      "postinstall" ∈ scripts.map Prod.fst) := by
  simp [parsePackageJsonScripts, List.any_map, List.any_eq_true, Function.comp]

/-! ## C1: first-match-wins per category per comment -/

/-- C1: when a comment body contains two distinct trigger phrases of the same
catalog, the comment contributes exactly one Signal for that category, and the
recorded pattern is the first catalog entry (in declaration order) that
matches. -/
theorem pr_comment_first_match_wins
    (cat : List String) (pr : PullRequest) (c : PRComment)
    (hcat : cat = confusion_patterns ∨ cat = debt_patterns ∨ cat = fragility_patterns)
    (p₁ p₂ : String) (h₁ : p₁ ∈ cat) (h₂ : p₂ ∈ cat) (hne : p₁ ≠ p₂)
    (hm₁ : strContains (lowerBody c) p₁ = true)
    (hm₂ : strContains (lowerBody c) p₂ = true) :
    (commentSignals cat pr c).length = 1 ∧
    ∀ s ∈ commentSignals cat pr c,
      cat.find? (fun p => strContains (lowerBody c) p) = some s.pattern := by
  have hex : (cat.find? (fun p => strContains (lowerBody c) p)).isSome := by
    rw [List.find?_isSome]
    exact ⟨p₁, h₁, hm₁⟩
  obtain ⟨q, hq⟩ := Option.isSome_iff_exists.mp hex
  refine ⟨?_, ?_⟩
  · simp [commentSignals, hq]
  · intro s hs
    simp only [commentSignals, hq, List.mem_singleton] at hs
    subst hs
    exact hq

/-- C1 witness at a concrete comment containing two confusion phrases. -/
theorem pr_comment_first_match_wins_w :
    (commentSignals confusion_patterns prW cW).length = 1 :=
  (pr_comment_first_match_wins confusion_patterns prW cW (Or.inl rfl)
    "how does" "why does" (by decide) (by decide) (by decide) (by decide) (by decide)).1

/-! ## C5: PR scan bound and counters -/

theorem foldl_processPR_comments (l : List PullRequest) (acc : PRIntelligence) :
    (l.foldl processPR acc).total_comments_analyzed =
      acc.total_comments_analyzed + (l.map commentCount).sum := by
  induction l generalizing acc with
  | nil => simp
  | cons pr l ih =>
    rw [List.foldl_cons, ih]
    cases hc : pr.comments <;> simp [processPR, hc, commentCount] <;> omega

/-- C5: the miner processes exactly the first 100 pull requests (its whole
output is a function of that segment), `total_prs_analyzed` is the number of
PRs actually scanned (at most 100), and `total_comments_analyzed` is the total
number of comments scanned over those PRs, independent of match outcomes. -/
theorem pr_scan_caps_and_counters (prs : List PullRequest) :
    minePRComments prs = minePRComments (prs.take 100) ∧
    (minePRComments prs).total_prs_analyzed = min 100 prs.length ∧
    (minePRComments prs).total_prs_analyzed ≤ 100 ∧
    (minePRComments prs).total_comments_analyzed =
      ((prs.take 100).map commentCount).sum := by
  refine ⟨?_, ?_, ?_, ?_⟩
  · simp [minePRComments, List.take_take]
  · simp [minePRComments, List.length_take]
  · simp [minePRComments, List.length_take]
  · simp [minePRComments, foldl_processPR_comments, emptyIntelligence]

/-! ## C9: snippet length bound -/

theorem commentSignals_snippet_le (patterns : List String) (pr : PullRequest)
    (c : PRComment) : ∀ s ∈ commentSignals patterns pr c, s.snippet.length ≤ 200 := by
  intro s hs
  unfold commentSignals at hs
  cases hfind : patterns.find? (fun p => strContains (lowerBody c) p) with
  | none => simp [hfind] at hs
  | some q =>
    simp only [hfind, List.mem_singleton] at hs
    subst hs
    exact pyTake_length_le _ _

theorem foldl_processPR_snippets (l : List PullRequest) (acc : PRIntelligence)
    (hin : ∀ s : Signal,
      (s ∈ acc.confusion_signals ∨ s ∈ acc.tech_debt_acknowledgments ∨
        s ∈ acc.fragility_mentions) → s.snippet.length ≤ 200) :
    ∀ s : Signal,
      (s ∈ (l.foldl processPR acc).confusion_signals ∨
        s ∈ (l.foldl processPR acc).tech_debt_acknowledgments ∨
        s ∈ (l.foldl processPR acc).fragility_mentions) → s.snippet.length ≤ 200 := by
  induction l generalizing acc with
  | nil => exact hin
  | cons pr l ih =>
    rw [List.foldl_cons]
    refine ih _ ?_
    intro s hs
    cases hc : pr.comments with
    | none => exact hin s (by simpa [processPR, hc] using hs)
    | some cs =>
      simp only [processPR, hc, List.mem_append] at hs
      rcases hs with (h | h) | (h | h) | (h | h)
      · exact hin s (Or.inl h)
      · exact commentSignals_snippet_le _ _ _ s (List.mem_flatMap.mp h).choose_spec.2
      · exact hin s (Or.inr (Or.inl h))
      · exact commentSignals_snippet_le _ _ _ s (List.mem_flatMap.mp h).choose_spec.2
      · exact hin s (Or.inr (Or.inr h))
      · exact commentSignals_snippet_le _ _ _ s (List.mem_flatMap.mp h).choose_spec.2

/-- C9: every Signal the PR miner produces, in any of the three category
lists, has a snippet of at most 200 characters, for inputs of any size. -/
theorem pr_signal_snippet_bounded (prs : List PullRequest) (s : Signal)
    (h : s ∈ (minePRComments prs).confusion_signals ∨
      s ∈ (minePRComments prs).tech_debt_acknowledgments ∨
      s ∈ (minePRComments prs).fragility_mentions) :
    s.snippet.length ≤ 200 := by
  refine foldl_processPR_snippets (prs.take 100) emptyIntelligence ?_ s ?_
  · intro s hs
    simp [emptyIntelligence] at hs
  · simpa [minePRComments] using h

/-- C9 witness: a concrete produced signal, with its bound. -/
theorem pr_signal_snippet_bounded_w : sW.snippet.length ≤ 200 :=
  pr_signal_snippet_bounded prsW sW (by decide)

/-! ## C10: compose service list has no duplicates -/

theorem composeStep_nodup {st : ComposeState} (h : st.services.Nodup) (line : String) :
    ((composeStep st line).services).Nodup := by
  unfold composeStep
  dsimp only
  split_ifs <;> simp_all [List.nodup_append]

theorem foldl_composeStep_nodup (lines : List String) (st : ComposeState)
    (h : st.services.Nodup) : ((lines.foldl composeStep st).services).Nodup := by
  induction lines generalizing st with
  | nil => exact h
  | cons l ls ih => exact ih _ (composeStep_nodup h l)

theorem parseComposeContent_nodup (acc : List String) (content : String)
    (h : acc.Nodup) : (parseComposeContent acc content).Nodup :=
  foldl_composeStep_nodup _ ⟨false, acc⟩ h

/-- C10: the collected compose service list never contains a duplicate (names
already seen, in any of the four candidate files, are skipped), so
`service_count` is both the list length and the number of distinct service
names, and the complexity classification is computed from that deduplicated
count. -/
theorem compose_services_nodup (files : List (Option String)) :
    (parseDockerCompose files).services.Nodup ∧
    (parseDockerCompose files).service_count = (parseDockerCompose files).services.length ∧
    (parseDockerCompose files).service_count =
      (parseDockerCompose files).services.toFinset.card ∧
    (parseDockerCompose files).complexity =
      (if (parseDockerCompose files).service_count ≤ 2 then "low"
       else if (parseDockerCompose files).service_count ≤ 4 then "medium" else "high") := by
  have key : ∀ (fs : List (Option String)) (acc : List String), acc.Nodup →
      (fs.foldl
        (fun acc f =>
          match f with
          | none => acc
          | some c => parseComposeContent acc c) acc).Nodup := by
    intro fs
    induction fs with
    | nil => intro acc h; exact h
    | cons f fs ih =>
      intro acc h
      cases f with
      | none => exact ih acc h
      | some c => exact ih _ (parseComposeContent_nodup acc c h)
  have hnodup : (parseDockerCompose files).services.Nodup := by
    simpa [parseDockerCompose] using key files [] (by simp)
  refine ⟨hnodup, rfl, ?_, rfl⟩
  exact (List.toFinset_card_of_nodup hnodup).symm

/-! ## C6: revert-rate insight threshold -/

/-- C6: for a non-empty commit list, the high-severity `high_revert_rate`
insight is emitted iff the revert fraction strictly exceeds 0.03; in
particular it does not fire when the fraction is exactly 0.03.  (For at most
200 commits the source's float comparison agrees with this exact rational
comparison; see the comment on `analyzeCommitPatterns`.) -/
theorem commit_revert_rate_insight (cs : List Commit) (h : cs ≠ []) :
    ((∃ i ∈ (analyzeCommitPatterns cs).insights,
        i.issue = "high_revert_rate" ∧ i.severity = "high") ↔
      ((analyzeCommitPatterns cs).revert_commits.length : ℚ) /
          ((analyzeCommitPatterns cs).total_commits : ℚ) > 0.03) := by
  have hne : ¬ ((cs.take 200).length = 0) := by
    simp only [List.length_take]
    have := List.length_pos.mpr h
    omega
  simp only [analyzeCommitPatterns, if_neg hne]
  split_ifs with h1 h2 h3 h4 <;>
    simp_all [List.mem_append] <;>
    intro i hi <;>
    rcases hi with hi | hi | hi <;>
    simp_all

/-- C6 witness: one revert commit out of one → ratio 1 > 0.03, insight fires. -/
theorem commit_revert_rate_insight_w :
    ∃ i ∈ (analyzeCommitPatterns [commitW]).insights,
      i.issue = "high_revert_rate" ∧ i.severity = "high" :=
  (commit_revert_rate_insight [commitW] (by decide)).mpr (by
    have h1 : (analyzeCommitPatterns [commitW]).revert_commits.length = 1 := by decide
    have h2 : (analyzeCommitPatterns [commitW]).total_commits = 1 := by decide
    rw [h1, h2]
    norm_num)

/-! ## C8: workflows with no timestamps produce no duration statistic -/

/-- C8: when every fetched run of a workflow lacks a created or updated
timestamp, no average-duration statistic is produced for it and the
`slow_ci_workflow` insight cannot fire for it. -/
theorem ci_missing_timestamps_no_duration (w : CIWorkflow)
    (h : ∀ r ∈ fetchedRuns w, r.created_at = none ∨ r.updated_at = none) :
    (processWorkflow w).avg_duration_seconds = none ∧
    (processWorkflow w).avg_duration_minutes = none ∧
    ∀ i ∈ workflowInsights (processWorkflow w), i.issue ≠ "slow_ci_workflow" := by
  have hdur : (fetchedRuns w).filterMap runDuration = [] := by
    rw [List.filterMap_eq_nil_iff]
    intro r hr
    rcases h r hr with h1 | h1 <;>
      cases hc : r.created_at <;> cases hu : r.updated_at <;> simp_all [runDuration]
  have hsec : (processWorkflow w).avg_duration_seconds = none := by
    by_cases hr : (fetchedRuns w).length = 0 <;> simp [processWorkflow, hr, hdur]
  have hmin : (processWorkflow w).avg_duration_minutes = none := by
    by_cases hr : (fetchedRuns w).length = 0 <;> simp [processWorkflow, hr, hdur]
  refine ⟨hsec, hmin, ?_⟩
  intro i hi
  unfold workflowInsights at hi
  rw [hmin] at hi
  simp only [Option.getD_none] at hi
  rw [if_neg (by norm_num : ¬ ((0 : ℚ) > 15))] at hi
  simp only [List.nil_append] at hi
  split_ifs at hi
  · simp only [List.mem_singleton] at hi
    subst hi
    simp
  · simp at hi

/-! ## C3: which Makefile lines are recorded as targets -/

theorem mkStep_targets (st : MkState) (line : String) :
    (mkStep st line).targets = st.targets ++ (lineTarget line).toList := by
  unfold mkStep lineTarget
  dsimp only
  by_cases h1 : mkTargetLine line = true
  · rw [if_pos h1, if_pos h1]
    split_ifs <;> simp
  · rw [if_neg h1, if_neg h1]
    simp only [Option.toList_none, List.append_nil]
    by_cases h2 : pyStartsWith line "\t" = true
    · rw [if_pos h2]
      cases st.current with
      | none => rfl
      | some cur =>
        dsimp only
        by_cases h3 : (!(pyStrip line == "") && !(pyStartsWith (pyStrip line) "@echo") &&
            !(pyStartsWith (pyStrip line) "#")) = true
        · rw [if_pos h3]
        · rw [if_neg h3]
    · rw [if_neg h2]

theorem foldl_mkStep_targets (lines : List String) (st : MkState) :
    (lines.foldl mkStep st).targets = st.targets ++ lines.filterMap lineTarget := by
  induction lines generalizing st with
  | nil => simp
  | cons l ls ih =>
    rw [List.foldl_cons, ih, mkStep_targets, List.filterMap_cons]
    cases lineTarget l <;> simp

/-- C3 counterexample: the line `.PHONY: test` does not start with a tab, is
not a comment, and contains a colon, yet its trimmed symbol `.PHONY` is not
recorded as a target (symbols starting with a period are excluded). -/
theorem makefile_target_claim_cex :
    (!(pyStartsWith mkCex3 "\t") && !(pyStartsWith mkCex3 "#") &&
      strContains mkCex3 ":") = true ∧
    pyStrip (pySplitHead mkCex3 ':') ∉ (parseMakefile mkCex3).targets := by
  decide

/-- C3 (amended): a line is recorded as a target iff it is non-empty, does not
start with a tab, contains a colon, does not start with `#`, and the trimmed
symbol before the first colon is non-empty and does not start with a period;
the target list is exactly the per-line extraction over all input lines. -/
theorem makefile_targets_characterization (content : String) :
    (parseMakefile content).targets = (pyLines content).filterMap lineTarget := by
  simpa [parseMakefile] using foldl_mkStep_targets (pyLines content) ⟨[], none, []⟩

/-! ## C4: Makefile flag characterization

The `uses_docker` flag tests `'docker' in str(commands)`.  The rendered dict
interleaves the keys and commands with punctuation glue; since every character
of `docker` is alphabetic and no glue character is, a match must lie entirely
inside one key or one command.  The lemmas below establish that decomposition. -/

theorem seg_split {α : Type} {w a b : List α} (h : w <:+: a ++ b) :
    w <:+: a ∨ w <:+: b ∨
      ∃ w₁ w₂, w = w₁ ++ w₂ ∧ w₁ ≠ [] ∧ w₂ ≠ [] ∧ w₁ <:+ a ∧ w₂ <+: b := by
  obtain ⟨s, t, hst⟩ := h
  by_cases h1 : s.length + w.length ≤ a.length
  · left
    have h2 : (s ++ w ++ t).take a.length = a := by rw [hst]; exact List.take_left a b
    rw [List.take_append_eq_append_take] at h2
    rw [List.take_of_length_le (by simpa using h1)] at h2
    exact ⟨s, t.take (a.length - (s ++ w).length), h2⟩
  · by_cases h2 : a.length ≤ s.length
    · right; left
      have h3 : (s ++ w ++ t).drop a.length = b := by rw [hst]; exact List.drop_left a b
      rw [List.drop_append_eq_append_drop] at h3
      rw [List.drop_append_eq_append_drop] at h3
      have hz1 : a.length - s.length = 0 := by omega
      have hz2 : a.length - (s ++ w).length = 0 := by
        simp only [List.length_append]
        omega
      rw [hz1, hz2, List.drop_zero, List.drop_zero] at h3
      exact ⟨s.drop a.length, t, h3⟩
    · right; right
      have h2' : s.length < a.length := by omega
      have h1' : a.length < s.length + w.length := by omega
      refine ⟨w.take (a.length - s.length), w.drop (a.length - s.length),
        (List.take_append_drop _ w).symm, ?_, ?_, ?_, ?_⟩
      · intro hnil
        have hlen := congrArg List.length hnil
        simp only [List.length_take, List.length_nil] at hlen
        omega
      · intro hnil
        have hlen := congrArg List.length hnil
        simp only [List.length_drop, List.length_nil] at hlen
        omega
      · refine ⟨s, ?_⟩
        have h3 : (s ++ (w ++ t)).take a.length = a := by
          rw [← List.append_assoc, hst]
          exact List.take_left a b
        rw [List.take_append_eq_append_take] at h3
        rw [List.take_of_length_le (le_of_lt h2')] at h3
        rw [List.take_append_eq_append_take] at h3
        have hz : a.length - s.length - w.length = 0 := by omega
        rw [hz, List.take_zero, List.append_nil] at h3
        exact h3
      · refine ⟨t, ?_⟩
        have h3 : (s ++ (w ++ t)).drop a.length = b := by
          rw [← List.append_assoc, hst]
          exact List.drop_left a b
        rw [List.drop_append_eq_append_drop] at h3
        rw [List.drop_eq_nil_of_le (le_of_lt h2')] at h3
        rw [List.nil_append] at h3
        rw [List.drop_append_eq_append_drop] at h3
        have hz : a.length - s.length - w.length = 0 := by omega
        rw [hz, List.drop_zero] at h3
        exact h3

theorem mem_within {w g : List Char} (h : w <:+: g) : ∀ c ∈ w, c ∈ g := by
  obtain ⟨s, t, rfl⟩ := h
  intro c hc
  simp [List.mem_append, hc]

theorem not_infix_glue {w g : List Char} (hw : w ≠ []) (ha : allAlpha w)
    (hg : noAlpha g) : ¬ w <:+: g := by
  intro h
  cases w with
  | nil => exact hw rfl
  | cons c cs =>
    have hcg : c ∈ g := mem_within h c (List.mem_cons_self ..)
    have hal : c.isAlpha = true := ha c (List.mem_cons_self ..)
    have hna : c.isAlpha = false := hg c hcg
    simp [hal] at hna

theorem drop_glue_left {w g b : List Char} (hw : w ≠ []) (ha : allAlpha w)
    (hg : noAlpha g) (h : w <:+: g ++ b) : w <:+: b := by
  rcases seg_split h with h' | h' | ⟨w₁, w₂, hw12, h1ne, _, ⟨s, hs⟩, _⟩
  · exact absurd h' (not_infix_glue hw ha hg)
  · exact h'
  · exfalso
    cases w₁ with
    | nil => exact h1ne rfl
    | cons c cs =>
      have hcg : c ∈ g := by
        rw [← hs]
        simp
      have hal : c.isAlpha = true := ha c (by rw [hw12]; simp)
      have hna : c.isAlpha = false := hg c hcg
      simp [hal] at hna

theorem drop_glue_right {w a g : List Char} (hw : w ≠ []) (ha : allAlpha w)
    (hg : noAlpha g) (h : w <:+: a ++ g) : w <:+: a := by
  rcases seg_split h with h' | h' | ⟨w₁, w₂, hw12, _, h2ne, _, ⟨t, ht⟩⟩
  · exact h'
  · exact absurd h' (not_infix_glue hw ha hg)
  · exfalso
    cases w₂ with
    | nil => exact h2ne rfl
    | cons c cs =>
      have hcg : c ∈ g := by
        rw [← ht]
        simp
      have hal : c.isAlpha = true := ha c (by rw [hw12]; simp)
      have hna : c.isAlpha = false := hg c hcg
      simp [hal] at hna

theorem split_glue {w a g b : List Char} (hw : w ≠ []) (ha : allAlpha w)
    (hg : noAlpha g) (hgne : g ≠ []) (h : w <:+: a ++ (g ++ b)) :
    w <:+: a ∨ w <:+: b := by
  rcases seg_split h with h' | h' | ⟨w₁, w₂, hw12, _, h2ne, _, ⟨t, ht⟩⟩
  · exact Or.inl h'
  · exact Or.inr (drop_glue_left hw ha hg h')
  · exfalso
    cases w₂ with
    | nil => exact h2ne rfl
    | cons c cs =>
      cases g with
      | nil => exact hgne rfl
      | cons d ds =>
        have hcd : c = d := by
          have hh := congrArg List.head? ht
          simpa using hh
        have hal : c.isAlpha = true := ha c (by rw [hw12]; simp)
        have hna : c.isAlpha = false := by
          rw [hcd]
          exact hg d (by simp)
        simp [hal] at hna

theorem embed_mid {w m : List Char} (a b : List Char) (h : w <:+: m) :
    w <:+: a ++ m ++ b := by
  obtain ⟨s, t, rfl⟩ := h
  exact ⟨a ++ s, t ++ b, by simp [List.append_assoc]⟩

theorem embed_left {w m : List Char} (a : List Char) (h : w <:+: m) : w <:+: a ++ m := by
  simpa using embed_mid a [] h

theorem embed_right {w m : List Char} (b : List Char) (h : w <:+: m) : w <:+: m ++ b := by
  simpa using embed_mid [] b h

theorem qcore_iff {w : List Char} (hw : w ≠ []) (ha : allAlpha w) :
    ∀ l : List String, (w <:+: qcore l ↔ ∃ s ∈ l, w <:+: s.data) := by
  intro l
  induction l with
  | nil =>
    simp only [qcore]
    constructor
    · intro h
      obtain ⟨s, t, hst⟩ := h
      have hlen := congrArg List.length hst
      simp only [List.length_append, List.length_nil] at hlen
      exact absurd (List.length_eq_zero.mp (by omega)) hw
    · rintro ⟨s, hs, _⟩
      simp at hs
  | cons x xs ih =>
    cases xs with
    | nil =>
      simp only [qcore]
      constructor
      · intro h
        have h0 : w <:+: [aq] ++ (x.data ++ [aq]) := by
          simpa [qItem, List.append_assoc] using h
        have h1 : w <:+: x.data ++ [aq] := drop_glue_left hw ha (by decide) h0
        exact ⟨x, by simp, drop_glue_right hw ha (by decide) h1⟩
      · rintro ⟨s, hs, h⟩
        simp only [List.mem_singleton] at hs
        subst hs
        simpa [qItem, List.append_assoc] using embed_mid [aq] [aq] h
    | cons y ys =>
      constructor
      · intro h
        have h0 : w <:+: qItem x ++ ([',', ' '] ++ qcore (y :: ys)) := by
          simpa [qcore, List.append_assoc] using h
        rcases split_glue hw ha (by decide) (by decide) h0 with h' | h'
        · have h1 : w <:+: x.data ++ [aq] :=
            drop_glue_left (g := [aq]) hw ha (by decide)
              (by simpa [qItem, List.append_assoc] using h')
          exact ⟨x, by simp, drop_glue_right hw ha (by decide) h1⟩
        · rcases ih.mp h' with ⟨s, hs, h''⟩
          exact ⟨s, List.mem_cons_of_mem x hs, h''⟩
      · rintro ⟨s, hs, h⟩
        rcases List.mem_cons.mp hs with rfl | hs'
        · have h1 : w <:+: qItem s := by
            simpa [qItem, List.append_assoc] using embed_mid [aq] [aq] h
          simpa [qcore, List.append_assoc] using embed_right ([',', ' '] ++ qcore (y :: ys)) h1
        · have h1 : w <:+: qcore (y :: ys) := ih.mpr ⟨s, hs', h⟩
          simpa [qcore, qItem, List.append_assoc] using
            embed_left (qItem x ++ [',', ' ']) h1

theorem listRender_iff {w : List Char} (hw : w ≠ []) (ha : allAlpha w)
    (l : List String) : w <:+: listRenderL l ↔ ∃ s ∈ l, w <:+: s.data := by
  constructor
  · intro h
    have h0 : w <:+: ['['] ++ (qcore l ++ [']']) := by
      simpa [listRenderL, List.append_assoc] using h
    have h1 : w <:+: qcore l ++ [']'] := drop_glue_left hw ha (by decide) h0
    exact (qcore_iff hw ha l).mp (drop_glue_right hw ha (by decide) h1)
  · intro hx
    have h1 := (qcore_iff hw ha l).mpr hx
    simpa [listRenderL, List.append_assoc] using embed_mid ['['] [']'] h1

theorem eItem_iff {w : List Char} (hw : w ≠ []) (ha : allAlpha w)
    (p : String × List String) :
    w <:+: eItem p ↔ (w <:+: p.1.data ∨ ∃ c ∈ p.2, w <:+: c.data) := by
  constructor
  · intro h
    have h0 : w <:+: [aq] ++ (p.1.data ++ ([aq, ':', ' '] ++ listRenderL p.2)) := by
      simpa [eItem, List.append_assoc] using h
    have h1 : w <:+: p.1.data ++ ([aq, ':', ' '] ++ listRenderL p.2) :=
      drop_glue_left hw ha (by decide) h0
    rcases split_glue hw ha (by decide) (by decide) h1 with h' | h'
    · exact Or.inl h'
    · exact Or.inr ((listRender_iff hw ha p.2).mp h')
  · intro hx
    rcases hx with h' | h'
    · simpa [eItem, List.append_assoc] using
        embed_mid [aq] (aq :: ':' :: ' ' :: listRenderL p.2) h'
    · have h1 := (listRender_iff hw ha p.2).mpr h'
      simpa [eItem, List.append_assoc] using
        embed_left (aq :: p.1.data ++ [aq, ':', ' ']) h1

theorem ecore_iff {w : List Char} (hw : w ≠ []) (ha : allAlpha w) :
    ∀ m : List (String × List String),
      (w <:+: ecore m ↔ ∃ p ∈ m, (w <:+: p.1.data ∨ ∃ c ∈ p.2, w <:+: c.data)) := by
  intro m
  induction m with
  | nil =>
    simp only [ecore]
    constructor
    · intro h
      obtain ⟨s, t, hst⟩ := h
      have hlen := congrArg List.length hst
      simp only [List.length_append, List.length_nil] at hlen
      exact absurd (List.length_eq_zero.mp (by omega)) hw
    · rintro ⟨p, hp, _⟩
      simp at hp
  | cons x xs ih =>
    cases xs with
    | nil =>
      simp only [ecore]
      constructor
      · intro h
        exact ⟨x, by simp, (eItem_iff hw ha x).mp h⟩
      · rintro ⟨p, hp, h⟩
        simp only [List.mem_singleton] at hp
        subst hp
        exact (eItem_iff hw ha p).mpr h
    | cons y ys =>
      constructor
      · intro h
        have h0 : w <:+: eItem x ++ ([',', ' '] ++ ecore (y :: ys)) := by
          simpa [ecore, List.append_assoc] using h
        rcases split_glue hw ha (by decide) (by decide) h0 with h' | h'
        · exact ⟨x, by simp, (eItem_iff hw ha x).mp h'⟩
        · rcases ih.mp h' with ⟨p, hp, h''⟩
          exact ⟨p, List.mem_cons_of_mem x hp, h''⟩
      · rintro ⟨p, hp, h⟩
        rcases List.mem_cons.mp hp with rfl | hp'
        · have h1 : w <:+: eItem p := (eItem_iff hw ha p).mpr h
          simpa [ecore, List.append_assoc] using embed_right ([',', ' '] ++ ecore (y :: ys)) h1
        · have h1 : w <:+: ecore (y :: ys) := ih.mpr ⟨p, hp', h⟩
          simpa [ecore, List.append_assoc] using embed_left (eItem x ++ [',', ' ']) h1

theorem dictRender_iff {w : List Char} (hw : w ≠ []) (ha : allAlpha w)
    (m : List (String × List String)) :
    w <:+: dictRenderL m ↔ ∃ p ∈ m, (w <:+: p.1.data ∨ ∃ c ∈ p.2, w <:+: c.data) := by
  constructor
  · intro h
    have h0 : w <:+: ['{'] ++ (ecore m ++ ['}']) := by
      simpa [dictRenderL, List.append_assoc] using h
    have h1 : w <:+: ecore m ++ ['}'] := drop_glue_left hw ha (by decide) h0
    exact (ecore_iff hw ha m).mp (drop_glue_right hw ha (by decide) h1)
  · intro hx
    have h1 := (ecore_iff hw ha m).mpr hx
    simpa [dictRenderL, List.append_assoc] using embed_mid ['{'] ['}'] h1

theorem reprCommands_contains_iff (m : List (String × List String)) :
    strContains (reprCommands m) "docker" = true ↔
      ∃ p ∈ m,
        (strContains p.1 "docker" = true ∨ ∃ c ∈ p.2, strContains c "docker" = true) := by
  simp only [strContains_iff]
  exact dictRender_iff (by decide) (by decide) m

theorem keysOf_setEq (m : List (String × List String)) (k : String) (v : List String) :
    keysOf (m.map (fun p => if p.1 == k then (k, v) else p)) = keysOf m := by
  unfold keysOf
  induction m with
  | nil => rfl
  | cons p ps ih =>
    simp only [List.map_cons]
    rw [ih]
    by_cases hp : p.1 == k
    · rw [if_pos hp]
      have hpk : p.1 = k := eq_of_beq hp
      rw [hpk]
    · rw [if_neg hp]

theorem keysOf_updateAssoc (m : List (String × List String)) (k : String)
    (v : List String) (a : String) :
    a ∈ keysOf (updateAssoc m k v) ↔ a ∈ keysOf m ∨ a = k := by
  unfold updateAssoc
  split_ifs with hmem
  · rw [keysOf_setEq]
    constructor
    · exact Or.inl
    · rintro (h | rfl)
      · exact h
      · exact hmem
  · unfold keysOf
    simp [List.map_append]

theorem keysOf_appendCmd (m : List (String × List String)) (k c : String) :
    keysOf (appendCmd m k c) = keysOf m := by
  unfold appendCmd keysOf
  induction m with
  | nil => rfl
  | cons p ps ih =>
    simp only [List.map_cons]
    rw [ih]
    by_cases hp : p.1 == k
    · rw [if_pos hp]
    · rw [if_neg hp]

theorem mkStep_keys (st : MkState) (line : String)
    (h : ∀ a, a ∈ keysOf st.commands ↔ a ∈ st.targets) :
    ∀ a, a ∈ keysOf (mkStep st line).commands ↔ a ∈ (mkStep st line).targets := by
  intro a
  unfold mkStep
  dsimp only
  by_cases h1 : mkTargetLine line = true
  · rw [if_pos h1]
    split_ifs with h2
    · dsimp only
      rw [keysOf_updateAssoc]
      simp only [List.mem_append, List.mem_singleton]
      rw [h a]
    · exact h a
  · rw [if_neg h1]
    by_cases h2 : pyStartsWith line "\t" = true
    · rw [if_pos h2]
      cases st.current with
      | none => exact h a
      | some cur =>
        dsimp only
        split_ifs with h3
        · dsimp only
          rw [keysOf_appendCmd]
          exact h a
        · exact h a
    · rw [if_neg h2]
      exact h a

theorem foldl_mkStep_keys (lines : List String) (st : MkState)
    (h : ∀ a, a ∈ keysOf st.commands ↔ a ∈ st.targets) :
    ∀ a, a ∈ keysOf ((lines.foldl mkStep st).commands) ↔
      a ∈ (lines.foldl mkStep st).targets := by
  induction lines generalizing st with
  | nil => exact h
  | cons l ls ih => exact ih _ (mkStep_keys st l h)

theorem any_const_iff (l : List String) (x : Bool) :
    (l.any (fun _ => x) = true) ↔ (l ≠ [] ∧ x = true) := by
  cases l with
  | nil => simp
  | cons y ys =>
    simp only [List.any_cons, Bool.or_eq_true, ne_eq, reduceCtorEq, not_false_iff, true_and]
    cases x with
    | false =>
      simp only [Bool.false_eq_true, false_or, iff_false]
      intro hc
      rcases List.any_eq_true.mp hc with ⟨z, _, hz⟩
      exact absurd hz (by simp)
    | true => simp

/-- C4 counterexample: for the Makefile `docker-build:` + tab `make stuff`,
the deploy and test clauses hold but `uses_docker` is true although no
recorded command text contains `docker` (the target name inside the printed
commands dict matches instead), so the claimed conjunction fails. -/
theorem makefile_docker_claim_cex :
    ¬ (((parseMakefile mkCex4).has_deploy_target = true ↔
          ∃ t ∈ (parseMakefile mkCex4).targets, strContains t "deploy" = true) ∧
        ((parseMakefile mkCex4).has_test_target = true ↔
          ∃ t ∈ (parseMakefile mkCex4).targets, strContains t "test" = true) ∧
        ((parseMakefile mkCex4).uses_docker = true ↔
          ∃ p ∈ (parseMakefile mkCex4).commands, ∃ c ∈ p.2,
            strContains c "docker" = true)) := by
  decide

/-- C4 (amended): `has_deploy_target` and `has_test_target` are substring
tests over the recorded target names; `uses_docker` is true iff at least one
target exists and `docker` occurs in some target name or in some recorded
command (the source tests `'docker' in str(commands)`, whose keys are the
target names). -/
theorem makefile_flags_characterization (content : String) :
    ((parseMakefile content).has_deploy_target = true ↔
      ∃ t ∈ (parseMakefile content).targets, strContains t "deploy" = true) ∧
    ((parseMakefile content).has_test_target = true ↔
      ∃ t ∈ (parseMakefile content).targets, strContains t "test" = true) ∧
    ((parseMakefile content).uses_docker = true ↔
      ((parseMakefile content).targets ≠ [] ∧
        ((∃ t ∈ (parseMakefile content).targets, strContains t "docker" = true) ∨
          ∃ p ∈ (parseMakefile content).commands, ∃ c ∈ p.2,
            strContains c "docker" = true))) := by
  have hkeys := foldl_mkStep_keys (pyLines content) ⟨[], none, []⟩
    (by intro a; simp [keysOf])
  refine ⟨?_, ?_, ?_⟩
  · simp [parseMakefile, List.any_eq_true]
  · simp [parseMakefile, List.any_eq_true]
  · simp only [parseMakefile]
    rw [any_const_iff]
    rw [reprCommands_contains_iff]
    constructor
    · rintro ⟨hne, hx⟩
      refine ⟨hne, ?_⟩
      rcases hx with ⟨p, hp, hc | hc⟩
      · left
        refine ⟨p.1, ?_, hc⟩
        exact (hkeys p.1).mp (List.mem_map_of_mem Prod.fst hp)
      · right
        exact ⟨p, hp, hc⟩
    · rintro ⟨hne, hx⟩
      refine ⟨hne, ?_⟩
      rcases hx with ⟨t, ht, hc⟩ | ⟨p, hp, hc⟩
      · have hmem : t ∈ keysOf ((pyLines content).foldl mkStep ⟨[], none, []⟩).commands :=
          (hkeys t).mpr ht
        rcases List.mem_map.mp hmem with ⟨p, hp, hfst⟩
        refine ⟨p, hp, Or.inl ?_⟩
        rw [hfst]
        exact hc
      · exact ⟨p, hp, Or.inr hc⟩

/-- C8 witness: a workflow whose single run has no created timestamp. -/
theorem ci_missing_timestamps_no_duration_w :
    (∀ r ∈ fetchedRuns ciW, r.created_at = none ∨ r.updated_at = none) ∧
    ((processWorkflow ciW).avg_duration_seconds = none ∧
      (processWorkflow ciW).avg_duration_minutes = none ∧
      ∀ i ∈ workflowInsights (processWorkflow ciW), i.issue ≠ "slow_ci_workflow") :=
  ⟨by decide, ci_missing_timestamps_no_duration ciW (by decide)⟩

end Ingester
